import Mathlib

/-!
A shallow embedding of the boolean-equation engine of pytypedecl
(booleq.py): the term algebra with its normalizing constructors, the
simplifier, the pivot extractor, and the fixpoint solver.

Python frozensets of terms are modelled as deduplicated lists; term
equality in the source is structural, so the embedding derives a
decidable structural equality. Python dictionaries are modelled as
association lists (for the implication table and the assignments) or as
partial functions (for pivot dictionaries, whose iteration order is
never observable downstream).
-/

/-- Boolean terms: TRUE, FALSE, equalities between two labels,
conjunctions and disjunctions over child sets. -/
inductive Term where
  | tru : Term
  | fls : Term
  | eq (left right : String) : Term
  | and (exprs : List Term) : Term
  | or (exprs : List Term) : Term

mutual

/-- Structural equality of terms, as Python __eq__ on the five classes. -/
def Term.beq : Term → Term → Bool
  | .tru, .tru => true
  | .fls, .fls => true
  | .eq a b, .eq c d => a == c && b == d
  | .and es, .and fs => beqList es fs
  | .or es, .or fs => beqList es fs
  | _, _ => false
termination_by structural t => t

def beqList : List Term → List Term → Bool
  | [], [] => true
  | x :: xs, y :: ys => Term.beq x y && beqList xs ys
  | _, _ => false
termination_by structural l => l

end

mutual

theorem Term.beq_iff : ∀ t u : Term, Term.beq t u = true ↔ t = u
  | .tru, .tru => by simp [Term.beq]
  | .fls, .fls => by simp [Term.beq]
  | .eq a b, .eq c d => by simp [Term.beq]
  | .and es, .and fs => by simp [Term.beq, beqList_iff es fs]
  | .or es, .or fs => by simp [Term.beq, beqList_iff es fs]
  | .tru, .fls => by simp [Term.beq]
  | .tru, .eq _ _ => by simp [Term.beq]
  | .tru, .and _ => by simp [Term.beq]
  | .tru, .or _ => by simp [Term.beq]
  | .fls, .tru => by simp [Term.beq]
  | .fls, .eq _ _ => by simp [Term.beq]
  | .fls, .and _ => by simp [Term.beq]
  | .fls, .or _ => by simp [Term.beq]
  | .eq _ _, .tru => by simp [Term.beq]
  | .eq _ _, .fls => by simp [Term.beq]
  | .eq _ _, .and _ => by simp [Term.beq]
  | .eq _ _, .or _ => by simp [Term.beq]
  | .and _, .tru => by simp [Term.beq]
  | .and _, .fls => by simp [Term.beq]
  | .and _, .eq _ _ => by simp [Term.beq]
  | .and _, .or _ => by simp [Term.beq]
  | .or _, .tru => by simp [Term.beq]
  | .or _, .fls => by simp [Term.beq]
  | .or _, .eq _ _ => by simp [Term.beq]
  | .or _, .and _ => by simp [Term.beq]
termination_by structural t => t

theorem beqList_iff : ∀ l m : List Term, beqList l m = true ↔ l = m
  | [], [] => by simp [beqList]
  | x :: xs, y :: ys => by
      simp [beqList, Term.beq_iff x y, beqList_iff xs ys]
  | [], _ :: _ => by simp [beqList]
  | _ :: _, [] => by simp [beqList]
termination_by structural l => l

end

instance : DecidableEq Term := fun t u =>
  decidable_of_iff _ (Term.beq_iff t u)

def Term.isAnd : Term → Bool
  | .and _ => true
  | _ => false

def Term.isOr : Term → Bool
  | .or _ => true
  | _ => false

def Term.isEq : Term → Bool
  | .eq _ _ => true
  | _ => false

/-- Constructor for Eq (booleq.Eq.__new__): a reflexive equality
collapses to TRUE, otherwise the two labels are sorted so that the
lexicographically larger string is stored on the left. -/
def mkEq (left right : String) : Term :=
  if left = right then .tru
  else if left.data < right.data then .eq right left
  else .eq left right

/-- One level of flattening of nested conjunctions, as the
itertools.chain in booleq.And.__new__. -/
def flattenAnd (l : List Term) : List Term :=
  l.flatMap fun e => match e with | .and es => es | _ => [e]

/-- One level of flattening of nested disjunctions. -/
def flattenOr (l : List Term) : List Term :=
  l.flatMap fun e => match e with | .or es => es | _ => [e]

/-- The tail of booleq.And.__new__, applied to the already flattened,
deduplicated child set with TRUE dropped: collapse to FALSE if FALSE is
a member, unwrap a singleton, and the empty conjunction is TRUE. -/
def andOfSet (s : List Term) : Term :=
  if Term.fls ∈ s then .fls
  else match s with
    | [] => .tru
    | [e] => e
    | x :: y :: rest => .and (x :: y :: rest)

/-- The tail of booleq.Or.__new__, dual to andOfSet. -/
def orOfSet (s : List Term) : Term :=
  if Term.tru ∈ s then .tru
  else match s with
    | [] => .fls
    | [e] => e
    | x :: y :: rest => .or (x :: y :: rest)

/-- Constructor for And (booleq.And.__new__). -/
def mkAnd (l : List Term) : Term :=
  andOfSet (((flattenAnd l).dedup).filter (fun e => e != Term.tru))

/-- Constructor for Or (booleq.Or.__new__). -/
def mkOr (l : List Term) : Term :=
  orOfSet (((flattenOr l).dedup).filter (fun e => e != Term.fls))

/-- Variable assignments: a dictionary from variable name to the set of
still-possible values, modelled as an association list of deduplicated
lists. -/
abbrev Assignments := List (String × List String)

/-- Dictionary lookup with an empty-set default, as
assignments.get(key, set()) in booleq.py. -/
def getA (a : Assignments) (k : String) : List String :=
  (a.lookup k).getD []

mutual

/-- Term.simplify from booleq.py, by structural recursion on the term:
the constants are fixed, an equality whose sides are still mutually
possible is kept, an impossible one is rewritten to a disjunction over
the intersection of the two candidate sets, and And/Or rebuild
themselves from simplified children. -/
def Term.simplify : Term → Assignments → Term
  | .tru, _ => .tru
  | .fls, _ => .fls
  | .eq l r, a =>
      if r ∈ getA a l ∨ l ∈ getA a r then .eq l r
      else mkOr (((getA a l).filter (fun i => i ∈ getA a r)).map
                  fun i => mkAnd [mkEq l i, mkEq i r])
  | .and es, a => mkAnd (simplifyList es a)
  | .or es, a => mkOr (simplifyList es a)
termination_by structural t => t

def simplifyList : List Term → Assignments → List Term
  | [], _ => []
  | t :: ts, a => t.simplify a :: simplifyList ts a
termination_by structural l => l

end

/-- Pivot dictionaries, what extract_pivots returns: a mapping from a
label to the set of labels it is bounded by, modelled as a partial
function since the solver only reads it pointwise. -/
abbrev PivotMap := String → Option (List String)

/-- The merge step of booleq.And.extract_pivots: a key present on both
sides gets the intersection of the two candidate sets, a key present on
one side keeps its candidates. -/
def andMerge (acc p : PivotMap) : PivotMap := fun k =>
  match acc k, p k with
  | some a, some b => some (a.filter (fun x => x ∈ b))
  | some a, none => some a
  | none, o => o

/-- The merge of booleq.Or.extract_pivots: a key survives only if every
child binds it, and its candidates are the union over all children. The
Python code indexes pivots_list[0] and so has no defined behavior for an
empty child list (which no constructor-built Or can have); the embedding
totalizes that case to the empty pivot dictionary. -/
def orMergePivots : List PivotMap → PivotMap
  | [] => fun _ => none
  | p :: ps => fun k =>
      if (p k).isSome ∧ ∀ q ∈ ps, (q k).isSome
      then some ((p :: ps).foldl (fun acc q => acc ∪ (q k).getD []) [])
      else none

mutual

/-- Term.extract_pivots from booleq.py: the constants have no pivots, an
equality bounds each side by the other, And folds its children with
andMerge, Or merges its children with orMergePivots. -/
def Term.pivots : Term → PivotMap
  | .tru => fun _ => none
  | .fls => fun _ => none
  | .eq l r => fun k =>
      if k = l then some [r] else if k = r then some [l] else none
  | .and es => (pivotsList es).foldl andMerge (fun _ => none)
  | .or es => orMergePivots (pivotsList es)
termination_by structural t => t

def pivotsList : List Term → List PivotMap
  | [] => []
  | t :: ts => t.pivots :: pivotsList ts
termination_by structural l => l

end

/-- The solver state: registered variables and values, the implication
dictionary (an association list keyed by Eq terms), and the ground
truth. The Python attribute self.variables is called vars here because
variables is a reserved word in Lean. -/
structure Solver where
  vars : List String
  values : List String
  implications : List (Term × Term)
  ground_truth : Term

/-- A fresh solver, as booleq.Solver.__init__. -/
def Solver.init : Solver := ⟨[], [], [], .tru⟩

def Solver.register_variable (s : Solver) (v : String) : Solver :=
  { s with vars := s.vars ++ [v] }

def Solver.register_value (s : Solver) (v : String) : Solver :=
  { s with values := s.values ++ [v] }

/-- Solver.always_true: fails (returns none, for the failed assertion)
when the formula is the constant FALSE, otherwise conjoins it into the
ground truth. -/
def Solver.always_true (s : Solver) (formula : Term) : Option Solver :=
  if formula = Term.fls then none
  else some { s with ground_truth := mkAnd [s.ground_truth, formula] }

/-- Solver.implies: fails (returns none, for the raise or a failed
assertion) when the key is the constant TRUE or FALSE, is not an Eq
term, or is already present in the implication dictionary. -/
def Solver.implies (s : Solver) (e implication : Term) : Option Solver :=
  if e = Term.fls ∨ e = Term.tru then none
  else match e with
    | .eq l r =>
        if (s.implications.lookup (Term.eq l r)).isSome then none
        else some { s with
          implications := s.implications ++ [(Term.eq l r, implication)] }
    | _ => none

/-- The loop body of Solver._complete for one variable and all values:
add a TRUE implication for every missing (variable, value) key. -/
def completeRow (values : List String) (var : String)
    (imps : List (Term × Term)) : List (Term × Term) :=
  values.foldl (fun acc value =>
    let e := mkEq var value
    if (acc.lookup e).isSome then acc else acc ++ [(e, Term.tru)]) imps

/-- Solver._complete: insert all missing implications. -/
def Solver.complete (s : Solver) : Solver :=
  { s with implications :=
      (s.vars.foldl (fun acc var => completeRow s.values var acc)
        s.implications) }

/-- The initial assignment built by solve(): for each variable, every
registered value whose implication is not the literal FALSE. The lookup
default TRUE is dead code because solve() always runs on a completed
solver; the dedup models the Python set comprehension. -/
def Solver.initAssignments (s : Solver) : Assignments :=
  s.vars.map fun var =>
    (var, (s.values.filter fun value =>
            ((s.implications.lookup (mkEq var value)).getD Term.tru)
              != Term.fls).dedup)

/-- Rewrite every entry of an assignment dictionary in place, keeping
its keys. Both in-place updates of solve() factor through this. -/
def mapVals (f : String → List String → List String) (a : Assignments) :
    Assignments :=
  a.map fun kv => (kv.1, f kv.1 kv.2)

/-- Intersect a pivot dictionary into an assignment: entries whose key
the pivot dictionary binds get intersected with the bound, the rest are
unchanged; pivot keys that are not assignment keys are skipped. -/
def applyPivots (p : PivotMap) (a : Assignments) : Assignments :=
  mapVals (fun k v =>
    match p k with
    | some pv => v.filter (fun x => x ∈ pv)
    | none => v) a

/-- applyPivots together with the something_changed bookkeeping of
solve(): whether some entry lost at least one element. -/
def applyPivotsTrack (p : PivotMap) (a : Assignments) : Assignments × Bool :=
  (applyPivots p a,
   a.any fun kv =>
     match p kv.1 with
     | some pv => (kv.2.filter (fun x => x ∈ pv)).length != kv.2.length
     | none => false)

/-- Remove one value from one variable of the assignment, as
assignments[var].remove(value). -/
def removeVal (a : Assignments) (key v : String) : Assignments :=
  mapVals (fun k w => if k = key then w.erase v else w) a

/-- The inner loop body of solve() for one candidate value of a
variable: look up the implication, drop the value if the implication
simplifies to FALSE (recording the change), and collect the
implication term either way. -/
def processStep (impl : List (Term × Term)) (var : String)
    (st : Assignments × Bool × List Term) (value : String) :
    Assignments × Bool × List Term :=
  let t := (impl.lookup (mkEq var value)).getD Term.tru
  if Term.simplify t st.1 = Term.fls
  then (removeVal st.1 var value, true, st.2.2 ++ [t])
  else (st.1, st.2.1, st.2.2 ++ [t])

/-- The body of solve() for a single variable: walk a copy of the
variable's current candidate set with processStep, build the
disjunction of all collected implications, simplify it against the
updated assignment, and intersect its pivots into the assignment. -/
def processVar (impl : List (Term × Term)) (a : Assignments)
    (var : String) : Assignments × Bool :=
  let st := (getA a var).foldl (processStep impl var) (a, false, [])
  let d := Term.simplify (mkOr st.2.2) st.1
  let pr := applyPivotsTrack (Term.pivots d) st.1
  (pr.1, st.2.1 || pr.2)

/-- One full pass of the fixpoint loop over all variables. -/
def onePass (impl : List (Term × Term)) (vars : List String)
    (a : Assignments) : Assignments × Bool :=
  vars.foldl (fun st var =>
      let pr := processVar impl st.1 var
      (pr.1, st.2 || pr.2)) (a, false)

/-- The while something_changed loop of solve(). The fuel argument
bounds the number of passes; solve() supplies a bound that cannot be
exhausted, since every changed pass strictly shrinks the assignment. -/
def solveLoop (impl : List (Term × Term)) (vars : List String) :
    Nat → Assignments → Assignments
  | 0, a => a
  | fuel + 1, a =>
      let pr := onePass impl vars a
      if pr.2 then solveLoop impl vars fuel pr.1 else pr.1

/-- The assignment of solve() after the ground-truth narrowing step:
simplify the ground truth against the initial assignment, extract its
pivots and intersect them in. -/
def Solver.groundNarrowed (s : Solver) : Assignments :=
  let sc := s.complete
  let a0 := sc.initAssignments
  applyPivots (Term.pivots (Term.simplify sc.ground_truth a0)) a0

/-- The assignment reached after n passes of the fixpoint loop of
solve(), starting from the ground-narrowed assignment. The states
visited by solve() are exactly these, for n up to the pass at which
nothing changes any more. -/
def Solver.passIter (s : Solver) (n : Nat) : Assignments :=
  (fun a => (onePass s.complete.implications s.complete.vars a).1)^[n]
    s.groundNarrowed

/-- Solver.solve from booleq.py: complete the implication table, build
the initial assignment, narrow by the ground truth, then run the
fixpoint loop to quiescence. -/
def Solver.solve (s : Solver) : Assignments :=
  let sc := s.complete
  let a1 := s.groundNarrowed
  solveLoop sc.implications sc.vars
    ((a1.map fun kv => kv.2.length).sum + 1) a1

/-- The documented end-to-end example of booleq.py: one variable t over
values v1 v2 v3, implications Eq(t,v1) -> TRUE, Eq(t,v2) -> TRUE,
Eq(t,v3) -> FALSE, and ground truth
Or(Eq(t,v1), And(Eq(t,v2), Or(Eq(t,v2), Eq(t,v3)))). -/
def exampleSolver : Option Solver := do
  let s := ((Solver.init.register_variable "t").register_value
              "v1").register_value "v2" |>.register_value "v3"
  let s ← s.implies (mkEq "t" "v1") Term.tru
  let s ← s.implies (mkEq "t" "v2") Term.tru
  let s ← s.implies (mkEq "t" "v3") Term.fls
  s.always_true (mkOr [mkEq "t" "v1",
    mkAnd [mkEq "t" "v2", mkOr [mkEq "t" "v2", mkEq "t" "v3"]]])

/-- A solver whose ground truth simplifies to FALSE during solve() even
though the registered variable keeps a candidate: the equality relates
two labels that are neither variables nor values, so its candidate
intersection is empty. -/
def unsatGroundSolver : Option Solver := do
  let s := (Solver.init.register_variable "x").register_value "v1"
  s.always_true (mkEq "a" "b")

/-- A solver whose ground truth is an unsatisfiable conjunction on a
single variable: Eq(x,a) and Eq(x,b) for the two distinct values a, b. -/
def conflictSolver : Option Solver := do
  let s := ((Solver.init.register_variable "x").register_value
              "a").register_value "b"
  let s ← s.always_true (mkEq "x" "a")
  s.always_true (mkEq "x" "b")

/-- C1: the end-to-end example solves to t possibly v1 or v2, exactly. -/
theorem c1_end_to_end_example :
    (exampleSolver.map fun s => (getA s.solve "t").toFinset)
      = some ({"v1", "v2"} : Finset String) := by decide

/-- C9: Eq construction is symmetric, and a reflexive equality collapses
to the constant TRUE, so it never exists as a distinct term. -/
theorem c9_eq_symmetry (a b : String) :
    mkEq a b = mkEq b a ∧ mkEq a a = Term.tru := by
  refine ⟨?_, by simp [mkEq]⟩
  unfold mkEq
  by_cases hab : a = b
  · subst hab; rfl
  · have hba : ¬ b = a := fun h => hab h.symm
    rcases lt_trichotomy a.data b.data with h | h | h
    · rw [if_neg hab, if_neg hba, if_pos h, if_neg (asymm h)]
    · exact absurd (String.ext h) hab
    · rw [if_neg hab, if_neg hba, if_neg (asymm h), if_pos h]

/-- C2: simplification of an equality term: if either side is a current
candidate of the other the term is unchanged; otherwise it becomes the
disjunction, over the intersection of the two candidate sets, of
And(Eq(left,i), Eq(i,right)), and an empty intersection gives FALSE. -/
theorem c2_eq_simplify (l r : String) (a : Assignments) :
    (r ∈ getA a l ∨ l ∈ getA a r →
       Term.simplify (Term.eq l r) a = Term.eq l r) ∧
    (¬ (r ∈ getA a l ∨ l ∈ getA a r) →
       Term.simplify (Term.eq l r) a =
         mkOr (((getA a l).filter (fun i => i ∈ getA a r)).map
                fun i => mkAnd [mkEq l i, mkEq i r]) ∧
       ((getA a l).filter (fun i => i ∈ getA a r) = [] →
          Term.simplify (Term.eq l r) a = Term.fls)) := by
  refine ⟨fun h => ?_, fun h => ⟨?_, fun hemp => ?_⟩⟩
  · rw [Term.simplify, if_pos h]
  · rw [Term.simplify, if_neg h]
  · rw [Term.simplify, if_neg h, hemp]
    rfl

theorem c2_eq_simplify_witness :
    Term.simplify (Term.eq "b" "a") [("b", ["a"])] = Term.eq "b" "a" ∧
    Term.simplify (Term.eq "y" "x") [("y", ["v"]), ("x", ["v"])] =
      mkOr [mkAnd [mkEq "y" "v", mkEq "v" "x"]] ∧
    Term.simplify (Term.eq "y" "x") [("y", ["v"]), ("x", ["w"])] = Term.fls :=
  ⟨(c2_eq_simplify "b" "a" [("b", ["a"])]).1 (by decide),
   by
     have h := ((c2_eq_simplify "y" "x" [("y", ["v"]), ("x", ["v"])]).2
       (by decide)).1
     rw [h]; rfl,
   ((c2_eq_simplify "y" "x" [("y", ["v"]), ("x", ["w"])]).2
       (by decide)).2 (by decide)⟩

/-- C5: a ground truth that simplifies to FALSE is silent: FALSE has an
empty pivot dictionary, intersecting it into an assignment changes
nothing, and there is a concrete solver input whose ground truth
simplifies to FALSE during solve() while solve() still returns a
non-empty candidate set. -/
theorem c5_false_ground_truth_is_silent :
    (∀ k, Term.pivots Term.fls k = none) ∧
    (∀ a : Assignments, applyPivots (Term.pivots Term.fls) a = a) ∧
    (unsatGroundSolver.map fun s =>
        (Term.simplify s.ground_truth s.complete.initAssignments,
         getA s.solve "x"))
      = some (Term.fls, ["v1"]) := by
  refine ⟨fun k => rfl, fun a => ?_, by decide⟩
  show mapVals (fun k v => v) a = a
  unfold mapVals
  exact List.map_id' a

/-- The registration contract of claim C6, exactly as stated: implies
fails precisely for a TRUE/FALSE key or an already-present Eq key, and
always_true fails precisely for the constant FALSE. -/
def c6ClaimStatement : Prop :=
  (∀ (s : Solver) (e t : Term),
      (s.implies e t).isSome = true ↔
        ¬ (e = Term.tru ∨ e = Term.fls ∨
            (s.implications.lookup e).isSome = true)) ∧
  (∀ (s : Solver) (f : Term),
      (s.always_true f).isSome = true ↔ f ≠ Term.fls)

/-- C6 counterexample: an And key is neither TRUE nor FALSE nor an
already-present Eq key, yet implies rejects it, because the source also
asserts isinstance(e, Eq). -/
theorem c6_claim_counterexample : ¬ c6ClaimStatement := by
  intro h
  exact absurd
    ((h.1 Solver.init (Term.and [Term.eq "b" "a", Term.eq "d" "c"])
        Term.tru).2 (by decide))
    (by decide)

/-- C6 amended: implies succeeds exactly when the key is an Eq term not
already present in the implication table (so it fails for TRUE, FALSE,
every other non-Eq term, and duplicate keys), and always_true fails
exactly for the constant FALSE. -/
theorem c6_registration_contract (s : Solver) (e t f : Term) :
    ((s.implies e t).isSome = true ↔
       e.isEq = true ∧ (s.implications.lookup e).isSome = false) ∧
    ((s.always_true f).isSome = true ↔ f ≠ Term.fls) := by
  constructor
  · cases e with
    | tru => simp [Solver.implies, Term.isEq]
    | fls => simp [Solver.implies, Term.isEq]
    | and es => simp [Solver.implies, Term.isEq]
    | or es => simp [Solver.implies, Term.isEq]
    | eq l r =>
        simp only [Solver.implies, Term.isEq]
        rw [if_neg (by simp)]
        split
        · next h => simp [h]
        · next h =>
            simp only [Bool.not_eq_true] at h
            simp [h]
  · unfold Solver.always_true
    split <;> simp_all

theorem flattenAnd_eq_self {l : List Term} (h : ∀ e ∈ l, e.isAnd = false) :
    flattenAnd l = l := by
  induction l with
  | nil => rfl
  | cons e es ih =>
      have he : e.isAnd = false := h e (List.mem_cons_self e es)
      have ihe := ih fun x hx => h x (List.mem_cons_of_mem e hx)
      unfold flattenAnd at ihe ⊢
      rw [List.flatMap_cons, ihe]
      cases e <;> simp_all [Term.isAnd]

theorem flattenOr_eq_self {l : List Term} (h : ∀ e ∈ l, e.isOr = false) :
    flattenOr l = l := by
  induction l with
  | nil => rfl
  | cons e es ih =>
      have he : e.isOr = false := h e (List.mem_cons_self e es)
      have ihe := ih fun x hx => h x (List.mem_cons_of_mem e hx)
      unfold flattenOr at ihe ⊢
      rw [List.flatMap_cons, ihe]
      cases e <;> simp_all [Term.isOr]

/-- Claim C8 exactly as stated: over a duplicate-free child set of at
least two members with no nested same-kind term, the constructors
return a node with exactly that child set. -/
def c8ClaimStatement : Prop :=
  ∀ (l : List Term), l.Nodup → 2 ≤ l.length →
    ((∀ e ∈ l, e.isAnd = false) →
       ∃ es, mkAnd l = Term.and es ∧ es.toFinset = l.toFinset) ∧
    ((∀ e ∈ l, e.isOr = false) →
       ∃ es, mkOr l = Term.or es ∧ es.toFinset = l.toFinset)

/-- C8 counterexample: the set containing TRUE and two equalities meets
every hypothesis of the claim, but And construction drops the TRUE
child, so the result's child set is strictly smaller than the input. -/
theorem c8_claim_counterexample : ¬ c8ClaimStatement := by
  intro h
  obtain ⟨es, hes, hset⟩ :=
    (h [Term.eq "b" "a", Term.tru, Term.eq "d" "c"] (by decide)
        (by decide)).1 (by decide)
  have hc : Term.and es = Term.and [Term.eq "b" "a", Term.eq "d" "c"] := by
    rw [← hes]; decide
  injection hc with h2
  subst h2
  exact absurd hset (by decide)

/-- C8 amended: over a duplicate-free child set of at least two members
with no nested same-kind term that in addition contains neither constant
TRUE nor FALSE, the constructors return a node with exactly that child
set. -/
theorem c8_idempotent_normalization (l : List Term) (hn : l.Nodup)
    (hlen : 2 ≤ l.length) (ht : Term.tru ∉ l) (hf : Term.fls ∉ l) :
    ((∀ e ∈ l, e.isAnd = false) →
       ∃ es, mkAnd l = Term.and es ∧ es.toFinset = l.toFinset) ∧
    ((∀ e ∈ l, e.isOr = false) →
       ∃ es, mkOr l = Term.or es ∧ es.toFinset = l.toFinset) := by
  constructor
  · intro hA
    have h3 : l.filter (fun e => e != Term.tru) = l := by
      rw [List.filter_eq_self]
      intro e he
      simp only [bne_iff_ne, ne_eq, decide_eq_true_eq]
      exact fun het => ht (het ▸ he)
    unfold mkAnd
    rw [flattenAnd_eq_self hA, List.dedup_eq_self.2 hn, h3]
    unfold andOfSet
    rw [if_neg hf]
    match l, hlen with
    | x :: y :: rest, _ => exact ⟨x :: y :: rest, rfl, rfl⟩
  · intro hO
    have h3 : l.filter (fun e => e != Term.fls) = l := by
      rw [List.filter_eq_self]
      intro e he
      simp only [bne_iff_ne, ne_eq, decide_eq_true_eq]
      exact fun hef => hf (hef ▸ he)
    unfold mkOr
    rw [flattenOr_eq_self hO, List.dedup_eq_self.2 hn, h3]
    unfold orOfSet
    rw [if_neg ht]
    match l, hlen with
    | x :: y :: rest, _ => exact ⟨x :: y :: rest, rfl, rfl⟩

theorem c8_idempotent_normalization_witness :
    (∃ es, mkAnd [Term.eq "b" "a", Term.eq "d" "c"] = Term.and es ∧
       es.toFinset = [Term.eq "b" "a", Term.eq "d" "c"].toFinset) ∧
    (∃ es, mkOr [Term.eq "b" "a", Term.eq "d" "c"] = Term.or es ∧
       es.toFinset = [Term.eq "b" "a", Term.eq "d" "c"].toFinset) :=
  ⟨(c8_idempotent_normalization [Term.eq "b" "a", Term.eq "d" "c"]
      (by decide) (by decide) (by decide) (by decide)).1 (by decide),
   (c8_idempotent_normalization [Term.eq "b" "a", Term.eq "d" "c"]
      (by decide) (by decide) (by decide) (by decide)).2 (by decide)⟩

/-- Hereditary well-formedness of constructor-built terms: every
And/Or node has at least two children, none of them a node of the same
kind or a constant, and all of them well-formed in turn. -/
inductive Canonical : Term → Prop where
  | tru : Canonical .tru
  | fls : Canonical .fls
  | eq (l r : String) : Canonical (.eq l r)
  | and (es : List Term) (hlen : 2 ≤ es.length)
      (hflat : ∀ e ∈ es, e.isAnd = false ∧ e ≠ .tru ∧ e ≠ .fls)
      (hch : ∀ e ∈ es, Canonical e) :
      Canonical (.and es)
  | or (es : List Term) (hlen : 2 ≤ es.length)
      (hflat : ∀ e ∈ es, e.isOr = false ∧ e ≠ .tru ∧ e ≠ .fls)
      (hch : ∀ e ∈ es, Canonical e) :
      Canonical (.or es)

/-- The terms that can be built by composing the public constructors. -/
inductive Reachable : Term → Prop where
  | tru : Reachable .tru
  | fls : Reachable .fls
  | ofEq (a b : String) : Reachable (mkEq a b)
  | ofAnd (l : List Term) (h : ∀ t ∈ l, Reachable t) : Reachable (mkAnd l)
  | ofOr (l : List Term) (h : ∀ t ∈ l, Reachable t) : Reachable (mkOr l)

theorem mem_flattenAnd {x : Term} {l : List Term} (hx : x ∈ flattenAnd l) :
    (∃ es, Term.and es ∈ l ∧ x ∈ es) ∨ (x ∈ l ∧ x.isAnd = false) := by
  unfold flattenAnd at hx
  rw [List.mem_flatMap] at hx
  obtain ⟨e, he, hxe⟩ := hx
  cases e with
  | and es => exact Or.inl ⟨es, he, by simpa using hxe⟩
  | tru => simp at hxe; subst hxe; exact Or.inr ⟨he, rfl⟩
  | fls => simp at hxe; subst hxe; exact Or.inr ⟨he, rfl⟩
  | eq a b => simp at hxe; subst hxe; exact Or.inr ⟨he, rfl⟩
  | or es => simp at hxe; subst hxe; exact Or.inr ⟨he, rfl⟩

theorem mem_flattenOr {x : Term} {l : List Term} (hx : x ∈ flattenOr l) :
    (∃ es, Term.or es ∈ l ∧ x ∈ es) ∨ (x ∈ l ∧ x.isOr = false) := by
  unfold flattenOr at hx
  rw [List.mem_flatMap] at hx
  obtain ⟨e, he, hxe⟩ := hx
  cases e with
  | or es => exact Or.inl ⟨es, he, by simpa using hxe⟩
  | tru => simp at hxe; subst hxe; exact Or.inr ⟨he, rfl⟩
  | fls => simp at hxe; subst hxe; exact Or.inr ⟨he, rfl⟩
  | eq a b => simp at hxe; subst hxe; exact Or.inr ⟨he, rfl⟩
  | and es => simp at hxe; subst hxe; exact Or.inr ⟨he, rfl⟩

theorem andOfSet_canonical (s : List Term)
    (key : ∀ x ∈ s, x ≠ Term.tru ∧ x.isAnd = false ∧ Canonical x) :
    Canonical (andOfSet s) := by
  unfold andOfSet
  by_cases hfls : Term.fls ∈ s
  · rw [if_pos hfls]; exact Canonical.fls
  · rw [if_neg hfls]
    cases s with
    | nil => exact Canonical.tru
    | cons x xs =>
        cases xs with
        | nil => exact (key x (by simp)).2.2
        | cons y rest =>
            exact Canonical.and _ (by simp only [List.length_cons]; omega)
              (fun e he =>
                ⟨(key e he).2.1, (key e he).1, fun hef => hfls (hef ▸ he)⟩)
              (fun e he => (key e he).2.2)

theorem orOfSet_canonical (s : List Term)
    (key : ∀ x ∈ s, x ≠ Term.fls ∧ x.isOr = false ∧ Canonical x) :
    Canonical (orOfSet s) := by
  unfold orOfSet
  by_cases htru : Term.tru ∈ s
  · rw [if_pos htru]; exact Canonical.tru
  · rw [if_neg htru]
    cases s with
    | nil => exact Canonical.fls
    | cons x xs =>
        cases xs with
        | nil => exact (key x (by simp)).2.2
        | cons y rest =>
            exact Canonical.or _ (by simp only [List.length_cons]; omega)
              (fun e he =>
                ⟨(key e he).2.1, fun het => htru (het ▸ he), (key e he).1⟩)
              (fun e he => (key e he).2.2)

theorem mkAnd_canonical (l : List Term) (h : ∀ e ∈ l, Canonical e) :
    Canonical (mkAnd l) := by
  apply andOfSet_canonical
  intro x hx
  rw [List.mem_filter] at hx
  obtain ⟨hx1, hx2⟩ := hx
  rw [List.mem_dedup] at hx1
  have hxt : x ≠ Term.tru := by simpa [bne_iff_ne] using hx2
  rcases mem_flattenAnd hx1 with ⟨es, hes, hxes⟩ | ⟨hxl, hxA⟩
  · cases h _ hes with
    | and es hlen hflat hch =>
        exact ⟨hxt, (hflat x hxes).1, hch x hxes⟩
  · exact ⟨hxt, hxA, h x hxl⟩

theorem mkOr_canonical (l : List Term) (h : ∀ e ∈ l, Canonical e) :
    Canonical (mkOr l) := by
  apply orOfSet_canonical
  intro x hx
  rw [List.mem_filter] at hx
  obtain ⟨hx1, hx2⟩ := hx
  rw [List.mem_dedup] at hx1
  have hxf : x ≠ Term.fls := by simpa [bne_iff_ne] using hx2
  rcases mem_flattenOr hx1 with ⟨es, hes, hxes⟩ | ⟨hxl, hxO⟩
  · cases h _ hes with
    | or es hlen hflat hch =>
        exact ⟨hxf, (hflat x hxes).1, hch x hxes⟩
  · exact ⟨hxf, hxO, h x hxl⟩

theorem mkEq_canonical (a b : String) : Canonical (mkEq a b) := by
  unfold mkEq
  split
  · exact Canonical.tru
  · split
    · exact Canonical.eq b a
    · exact Canonical.eq a b

theorem reachable_canonical {t : Term} (h : Reachable t) : Canonical t := by
  induction h with
  | tru => exact Canonical.tru
  | fls => exact Canonical.fls
  | ofEq a b => exact mkEq_canonical a b
  | ofAnd l h ih => exact mkAnd_canonical l ih
  | ofOr l h ih => exact mkOr_canonical l ih

/-- C7: every And or Or node reachable by composing the public
constructors has at least two children, and no direct child of the same
kind. -/
theorem c7_structural_invariant (t : Term) (h : Reachable t) :
    (∀ es, t = Term.and es →
       2 ≤ es.length ∧ ∀ e ∈ es, e.isAnd = false) ∧
    (∀ es, t = Term.or es →
       2 ≤ es.length ∧ ∀ e ∈ es, e.isOr = false) := by
  have hc := reachable_canonical h
  constructor
  · rintro es rfl
    cases hc with
    | and es hlen hflat hch => exact ⟨hlen, fun e he => (hflat e he).1⟩
  · rintro es rfl
    cases hc with
    | or es hlen hflat hch => exact ⟨hlen, fun e he => (hflat e he).1⟩

theorem c7_structural_invariant_witness :
    2 ≤ [Term.eq "b" "a", Term.eq "d" "c"].length ∧
    ∀ e ∈ [Term.eq "b" "a", Term.eq "d" "c"], e.isAnd = false :=
  (c7_structural_invariant (mkAnd [mkEq "b" "a", mkEq "d" "c"])
      (Reachable.ofAnd [mkEq "b" "a", mkEq "d" "c"] (by
        intro t ht
        rcases List.mem_cons.1 ht with rfl | ht2
        · exact Reachable.ofEq "b" "a"
        · rcases List.mem_cons.1 ht2 with rfl | ht3
          · exact Reachable.ofEq "d" "c"
          · cases ht3))).1
    [Term.eq "b" "a", Term.eq "d" "c"] (by decide)

theorem mkEq_isAnd (a b : String) : (mkEq a b).isAnd = false := by
  unfold mkEq
  split
  · rfl
  · split <;> rfl

theorem mkEq_ne_tru {a b : String} (h : a ≠ b) : mkEq a b ≠ Term.tru := by
  unfold mkEq
  rw [if_neg h]
  split <;> simp

theorem mkEq_ne_fls (a b : String) : mkEq a b ≠ Term.fls := by
  unfold mkEq
  split
  · simp
  · split <;> simp

theorem mkEq_ne_mkEq {x a b : String} (hxa : x ≠ a) (hxb : x ≠ b)
    (hab : a ≠ b) : mkEq x a ≠ mkEq x b := by
  unfold mkEq
  rw [if_neg hxa, if_neg hxb]
  split <;> split <;> intro h <;> injection h with h1 h2
  · exact hab h1
  · exact hxa h1.symm
  · exact hxb h1
  · exact hab h2

theorem pivots_mkEq_self {x y : String} (h : x ≠ y) :
    Term.pivots (mkEq x y) x = some [y] := by
  unfold mkEq
  rw [if_neg h]
  split
  · simp only [Term.pivots]
    rw [if_neg (fun hxy => h hxy)]
    simp
  · simp only [Term.pivots]
    simp

/-- C10: a conjunction of two equalities on one variable with two
distinct labels pivots that variable to the empty candidate set, and the
concrete solver with exactly that ground truth returns the empty
candidate set for the variable instead of an error. -/
theorem c10_empty_pivot_conjunction (x a b : String) (hxa : x ≠ a)
    (hxb : x ≠ b) (hab : a ≠ b) :
    Term.pivots (mkAnd [mkEq x a, mkEq x b]) x = some [] ∧
    (conflictSolver.map fun s => getA s.solve "x") = some [] := by
  refine ⟨?_, by decide⟩
  have hne := mkEq_ne_mkEq hxa hxb hab
  have hand : mkAnd [mkEq x a, mkEq x b] =
      Term.and [mkEq x a, mkEq x b] := by
    unfold mkAnd
    rw [flattenAnd_eq_self (by
      intro e he
      rcases List.mem_cons.1 he with rfl | he2
      · exact mkEq_isAnd x a
      · rcases List.mem_cons.1 he2 with rfl | he3
        · exact mkEq_isAnd x b
        · cases he3)]
    rw [List.dedup_eq_self.2 (by simp [hne])]
    rw [List.filter_eq_self.2 (by
      intro e he
      rcases List.mem_cons.1 he with rfl | he2
      · simpa [bne_iff_ne] using mkEq_ne_tru hxa
      · rcases List.mem_cons.1 he2 with rfl | he3
        · simpa [bne_iff_ne] using mkEq_ne_tru hxb
        · cases he3)]
    unfold andOfSet
    rw [if_neg (by
      intro hmem
      rcases List.mem_cons.1 hmem with h | h2
      · exact mkEq_ne_fls x a h.symm
      · rcases List.mem_cons.1 h2 with h | h3
        · exact mkEq_ne_fls x b h.symm
        · cases h3)]
  rw [hand]
  simp only [Term.pivots, pivotsList, List.foldl_cons, List.foldl_nil]
  simp only [andMerge, pivots_mkEq_self hxa, pivots_mkEq_self hxb]
  simp [hab]

theorem c10_empty_pivot_conjunction_witness :
    Term.pivots (mkAnd [mkEq "x" "a", mkEq "x" "b"]) "x" = some [] ∧
    (conflictSolver.map fun s => getA s.solve "x") = some [] :=
  c10_empty_pivot_conjunction "x" "a" "b" (by decide) (by decide)
    (by decide)

theorem pivotsList_eq_map (l : List Term) :
    pivotsList l = l.map Term.pivots := by
  induction l with
  | nil => rfl
  | cons t ts ih => simp only [pivotsList, List.map_cons, ih]

theorem andMerge_none_iff (acc p : PivotMap) (k : String) :
    andMerge acc p k = none ↔ acc k = none ∧ p k = none := by
  unfold andMerge
  cases acc k <;> cases p k <;> simp

theorem andFold_none_iff (ps : List PivotMap) (init : PivotMap)
    (k : String) :
    (ps.foldl andMerge init) k = none ↔
      init k = none ∧ ∀ p ∈ ps, p k = none := by
  induction ps generalizing init with
  | nil => simp
  | cons p ps ih =>
      rw [List.foldl_cons, ih, andMerge_none_iff]
      simp [and_assoc]

theorem andMerge_some_forall (init p : PivotMap) (k x : String) :
    (∀ w, andMerge init p k = some w → x ∈ w) ↔
      ((∀ w, init k = some w → x ∈ w) ∧
       (∀ w, p k = some w → x ∈ w)) := by
  unfold andMerge
  cases hi : init k <;> cases hp : p k <;> simp [List.mem_filter]

theorem andFold_some_mem (ps : List PivotMap) (init : PivotMap)
    (k : String) (v : List String)
    (hv : (ps.foldl andMerge init) k = some v) (x : String) :
    x ∈ v ↔ ((∀ w, init k = some w → x ∈ w) ∧
             ∀ p ∈ ps, ∀ w, p k = some w → x ∈ w) := by
  induction ps generalizing init with
  | nil =>
      simp only [List.foldl_nil] at hv
      simp [hv]
  | cons p ps ih =>
      rw [List.foldl_cons] at hv
      rw [ih _ hv, andMerge_some_forall]
      simp [and_assoc]

theorem orFold_mem (qs : List PivotMap) (k x : String)
    (acc : List String) :
    x ∈ qs.foldl (fun acc q => acc ∪ (q k).getD []) acc ↔
      x ∈ acc ∨ ∃ q ∈ qs, x ∈ (q k).getD [] := by
  induction qs generalizing acc with
  | nil => simp
  | cons q qs ih =>
      rw [List.foldl_cons, ih]
      simp [or_assoc]

theorem orMergePivots_isSome (p : PivotMap) (ps : List PivotMap)
    (k : String) :
    (orMergePivots (p :: ps) k).isSome = true ↔
      (p k).isSome = true ∧ ∀ q ∈ ps, (q k).isSome = true := by
  simp only [orMergePivots]
  split
  · next hcond => simpa using hcond
  · next hcond => simpa using hcond

theorem orMergePivots_some_mem (p : PivotMap) (ps : List PivotMap)
    (k : String) (v : List String)
    (hv : orMergePivots (p :: ps) k = some v) (x : String) :
    x ∈ v ↔ ∃ q ∈ p :: ps, ∃ w, q k = some w ∧ x ∈ w := by
  simp only [orMergePivots] at hv
  split at hv
  · next hcond =>
      injection hv with hv2
      subst hv2
      rw [orFold_mem]
      simp only [List.not_mem_nil, false_or]
      constructor
      · rintro ⟨q, hq, hxq⟩
        have hqs : (q k).isSome := by
          rcases List.mem_cons.1 hq with rfl | hq2
          · exact hcond.1
          · exact hcond.2 q hq2
        obtain ⟨w, hw⟩ := Option.isSome_iff_exists.1 hqs
        refine ⟨q, hq, w, hw, ?_⟩
        rw [hw] at hxq
        simpa using hxq
      · rintro ⟨q, hq, w, hw, hxw⟩
        refine ⟨q, hq, ?_⟩
        rw [hw]
        simpa using hxw
  · cases hv

/-- C3: pivot extraction over compound terms: for And, a key is bound
iff some child binds it, and its candidates are the intersection over
the children binding it; for Or (with at least one child), a key is
bound iff every child binds it, and its candidates are the union over
all children. -/
theorem c3_extract_pivots (es : List Term) (k : String) (hne : es ≠ []) :
    (Term.pivots (Term.and es) k = none ↔
       ∀ e ∈ es, Term.pivots e k = none) ∧
    (∀ v, Term.pivots (Term.and es) k = some v →
       ∀ x, x ∈ v ↔ ∀ e ∈ es, ∀ w, Term.pivots e k = some w → x ∈ w) ∧
    ((Term.pivots (Term.or es) k).isSome = true ↔
       ∀ e ∈ es, (Term.pivots e k).isSome = true) ∧
    (∀ v, Term.pivots (Term.or es) k = some v →
       ∀ x, x ∈ v ↔ ∃ e ∈ es, ∃ w, Term.pivots e k = some w ∧ x ∈ w) := by
  cases es with
  | nil => exact absurd rfl hne
  | cons e rest =>
      refine ⟨?_, ?_, ?_, ?_⟩
      · simp only [Term.pivots, pivotsList_eq_map]
        rw [andFold_none_iff]
        simp
      · intro v hv x
        simp only [Term.pivots, pivotsList_eq_map] at hv
        rw [andFold_some_mem _ _ _ _ hv x]
        simp
      · simp only [Term.pivots, pivotsList_eq_map, List.map_cons]
        rw [orMergePivots_isSome]
        simp
      · intro v hv x
        simp only [Term.pivots, pivotsList_eq_map, List.map_cons] at hv
        rw [orMergePivots_some_mem _ _ _ _ hv x]
        constructor
        · rintro ⟨q, hq, w, hw, hxw⟩
          rw [← List.map_cons] at hq
          obtain ⟨e2, he2, rfl⟩ := List.mem_map.1 hq
          exact ⟨e2, he2, w, hw, hxw⟩
        · rintro ⟨e2, he2, w, hw, hxw⟩
          refine ⟨Term.pivots e2, ?_, w, hw, hxw⟩
          rw [← List.map_cons]
          exact List.mem_map_of_mem Term.pivots he2

theorem c3_extract_pivots_witness :
    (∀ x, x ∈ ([] : List String) ↔
       ∀ e ∈ [Term.eq "b" "a", Term.eq "c" "a"], ∀ w,
         Term.pivots e "a" = some w → x ∈ w) ∧
    (∀ x, x ∈ ["b", "c"] ↔
       ∃ e ∈ [Term.eq "b" "a", Term.eq "c" "a"], ∃ w,
         Term.pivots e "a" = some w ∧ x ∈ w) :=
  ⟨(c3_extract_pivots [Term.eq "b" "a", Term.eq "c" "a"] "a"
      (by decide)).2.1 [] (by decide),
   (c3_extract_pivots [Term.eq "b" "a", Term.eq "c" "a"] "a"
      (by decide)).2.2.2 ["b", "c"] (by decide)⟩

theorem lookup_mapVals (f : String → List String → List String)
    (a : Assignments) (k : String) :
    (mapVals f a).lookup k = (a.lookup k).map (f k) := by
  induction a with
  | nil => rfl
  | cons kv rest ih =>
      obtain ⟨k1, v⟩ := kv
      unfold mapVals at ih ⊢
      simp only [List.map_cons, List.lookup]
      by_cases h : k = k1
      · subst h
        simp
      · have hb : (k == k1) = false := by simpa using h
        simp [hb, ih]

/-- Pointwise inclusion of assignments: every candidate set of the first
is contained in the one of the second. -/
def Shrinks (a b : Assignments) : Prop := ∀ k, getA a k ⊆ getA b k

theorem shrinks_self (a : Assignments) : Shrinks a a :=
  fun _ => List.Subset.refl _

theorem shrinks_trans {a b c : Assignments} (h1 : Shrinks a b)
    (h2 : Shrinks b c) : Shrinks a c :=
  fun k => (h1 k).trans (h2 k)

theorem mapVals_shrinks (f : String → List String → List String)
    (h : ∀ k v, f k v ⊆ v) (a : Assignments) :
    Shrinks (mapVals f a) a := by
  intro k
  unfold getA
  rw [lookup_mapVals]
  cases hl : a.lookup k with
  | none => simp
  | some v => simpa using h k v

theorem applyPivots_shrinks (p : PivotMap) (a : Assignments) :
    Shrinks (applyPivots p a) a := by
  apply mapVals_shrinks
  intro k v
  cases p k <;> simp [List.filter_subset]

theorem removeVal_shrinks (a : Assignments) (key v : String) :
    Shrinks (removeVal a key v) a := by
  apply mapVals_shrinks
  intro k w
  by_cases h : k = key <;> simp [h, List.erase_subset]

theorem processStep_shrinks (impl : List (Term × Term)) (var : String)
    (st : Assignments × Bool × List Term) (value : String) :
    Shrinks (processStep impl var st value).1 st.1 := by
  simp only [processStep]
  split
  · exact removeVal_shrinks st.1 var value
  · exact shrinks_self st.1

theorem processFold_shrinks (impl : List (Term × Term)) (var : String)
    (vals : List String) :
    ∀ st : Assignments × Bool × List Term,
      Shrinks ((vals.foldl (processStep impl var) st)).1 st.1 := by
  induction vals with
  | nil => intro st; exact shrinks_self st.1
  | cons v vs ih =>
      intro st
      rw [List.foldl_cons]
      exact shrinks_trans (ih _) (processStep_shrinks impl var st v)

theorem processVar_shrinks (impl : List (Term × Term)) (a : Assignments)
    (var : String) : Shrinks (processVar impl a var).1 a := by
  unfold processVar
  exact shrinks_trans (applyPivots_shrinks _ _)
    (processFold_shrinks impl var (getA a var) (a, false, []))

theorem onePassFold_shrinks (impl : List (Term × Term))
    (vars : List String) :
    ∀ st : Assignments × Bool,
      Shrinks ((vars.foldl (fun st var =>
        let pr := processVar impl st.1 var
        (pr.1, st.2 || pr.2)) st)).1 st.1 := by
  induction vars with
  | nil => intro st; exact shrinks_self st.1
  | cons v vs ih =>
      intro st
      rw [List.foldl_cons]
      exact shrinks_trans (ih _) (processVar_shrinks impl st.1 v)

theorem onePass_shrinks (impl : List (Term × Term))
    (vars : List String) (a : Assignments) :
    Shrinks (onePass impl vars a).1 a := by
  unfold onePass
  exact onePassFold_shrinks impl vars (a, false)

theorem solveLoop_shrinks (impl : List (Term × Term))
    (vars : List String) :
    ∀ (fuel : Nat) (a : Assignments),
      Shrinks (solveLoop impl vars fuel a) a := by
  intro fuel
  induction fuel with
  | zero => intro a; exact shrinks_self a
  | succ n ih =>
      intro a
      simp only [solveLoop]
      split
      · exact shrinks_trans (ih _) (onePass_shrinks impl vars a)
      · exact onePass_shrinks impl vars a

/-- C4: monotonic shrink: after the ground-truth narrowing and after
every number of passes of the fixpoint loop, and in particular in the
result of solve(), every variable's candidate set is contained in the
candidate set it had at the start of solve(). -/
theorem c4_monotonic_shrink (s : Solver) (n : Nat) (k : String) :
    getA (s.passIter n) k ⊆ getA s.complete.initAssignments k ∧
    getA s.solve k ⊆ getA s.complete.initAssignments k := by
  have hg : Shrinks s.groundNarrowed s.complete.initAssignments :=
    applyPivots_shrinks _ _
  have hiter : ∀ m, Shrinks (s.passIter m) s.groundNarrowed := by
    intro m
    induction m with
    | zero => exact shrinks_self _
    | succ m ih =>
        unfold Solver.passIter at ih ⊢
        rw [Function.iterate_succ_apply']
        exact shrinks_trans (onePass_shrinks _ _ _) ih
  exact ⟨shrinks_trans (hiter n) hg k,
    shrinks_trans (solveLoop_shrinks _ _ _ _) hg k⟩
